import Mathlib

/-!
Verification of the `sets` Go package (github.com/freeformz/sets): a shallow
embedding of its set containers and of the helper functions built on the
`Set` interface, together with proofs of the behavioural properties stated
in the package documentation.

Modelling conventions:
* a Go `map[M]int` is an association list `List (M × Nat)` with the usual
  map operations (`goLookup`, `goInsert`, `goDelete`); a Go `map[M]struct{}`
  is the list of its keys;
* a Go slice is a `List`;
* methods that mutate the receiver become functions returning the new value
  of the receiver together with the Go return value;
* Go `int` shows up as `Int` at API boundaries where the sign matters
  (`Ordered.At`, `Ordered.Index`) and as `Nat` for stored positions, which
  the source only ever computes from lengths and loop counters.
-/

set_option linter.unusedSectionVars false
set_option linter.unusedVariables false

section GoMap

variable {M : Type} [DecidableEq M]

/-- Lookup in a Go `map[M]int` modelled as an association list (first match). -/
def goLookup : List (M × Nat) → M → Option Nat
  | [], _ => none
  | (k', v') :: t, k => if k' = k then some v' else goLookup t k

/-- Go map assignment: replace the binding for the key if it exists, otherwise
append a fresh binding. -/
def goInsert : List (M × Nat) → M → Nat → List (M × Nat)
  | [], k, v => [(k, v)]
  | (k', v') :: t, k, v => if k' = k then (k, v) :: t else (k', v') :: goInsert t k v

/-- Go `delete` on a `map[M]int`: drop every binding for the key. -/
def goDelete : List (M × Nat) → M → List (M × Nat)
  | [], _ => []
  | (k', v') :: t, k => if k' = k then goDelete t k else (k', v') :: goDelete t k

theorem goLookup_goInsert (l : List (M × Nat)) (k : M) (v : Nat) (k' : M) :
    goLookup (goInsert l k v) k' = if k = k' then some v else goLookup l k' := by
  induction l with
  | nil => simp [goInsert, goLookup]
  | cons p t ih =>
    obtain ⟨pk, pv⟩ := p
    by_cases hpk : pk = k
    · subst hpk
      by_cases h : pk = k' <;> simp [goInsert, goLookup, h]
    · by_cases hp : pk = k'
      · have hk : ¬ k = k' := fun hh => hpk (hp.trans hh.symm)
        have hk2 : ¬ k' = k := fun hh => hk hh.symm
        simp [goInsert, goLookup, hpk, hp, hk, hk2]
      · simp [goInsert, goLookup, hpk, hp, ih]

theorem goLookup_goDelete (l : List (M × Nat)) (k k' : M) :
    goLookup (goDelete l k) k' = if k' = k then none else goLookup l k' := by
  induction l with
  | nil => simp [goDelete, goLookup]
  | cons p t ih =>
    obtain ⟨pk, pv⟩ := p
    by_cases hpk : pk = k
    · subst hpk
      by_cases h : k' = pk
      · simpa [goDelete, h] using ih
      · have h2 : ¬ pk = k' := fun hh => h hh.symm
        simp [goDelete, goLookup, h, h2, ih]
    · by_cases hp : pk = k'
      · have h3 : ¬ k' = k := fun hh => hpk (hp.trans hh)
        simp [goDelete, goLookup, hpk, hp, h3]
      · simp [goDelete, goLookup, hpk, hp, ih]

theorem goLookup_mem {l : List (M × Nat)} {k : M} {v : Nat}
    (h : goLookup l k = some v) : (k, v) ∈ l := by
  induction l with
  | nil => simp [goLookup] at h
  | cons p t ih =>
    obtain ⟨pk, pv⟩ := p
    by_cases hpk : pk = k
    · subst hpk
      simp [goLookup] at h
      simp [h]
    · simp [goLookup, hpk] at h
      exact List.mem_cons_of_mem _ (ih h)

end GoMap

section OrderedContainer

variable {M : Type} [DecidableEq M] [Inhabited M]

/-- `Ordered[M]` from `ordered.go`: a reverse index `idx` (Go `map[M]int`)
and the forward sequence `values` (Go slice). -/
structure Ordered (M : Type) where
  idx : List (M × Nat)
  values : List M
  deriving Repr, DecidableEq

/-- `NewOrdered` from `ordered.go`. -/
def NewOrdered : Ordered M := ⟨[], []⟩

/-- `Ordered.Contains` from `ordered.go`. -/
def Ordered.Contains (s : Ordered M) (m : M) : Bool :=
  (goLookup s.idx m).isSome

/-- `Ordered.Add` from `ordered.go`: append to `values`, record the new last
position in `idx`; no-op returning `false` when already present. -/
def Ordered.Add (s : Ordered M) (m : M) : Bool × Ordered M :=
  if s.Contains m then (false, s)
  else
    let values := s.values ++ [m]
    (true, ⟨goInsert s.idx m (values.length - 1), values⟩)

/-- The renumbering loop of `Ordered.Remove`:
`for i, v := range s.values[d:] { s.idx[v] = d + i }`. -/
def renumber : List (M × Nat) → List M → Nat → List (M × Nat)
  | idx, [], _ => idx
  | idx, v :: vs, j => renumber (goInsert idx v j) vs (j + 1)

/-- `Ordered.Remove` from `ordered.go`: delete the slot at the element's
recorded position, renumber every later element down by one, then delete the
reverse-index entry. -/
def Ordered.Remove (s : Ordered M) (m : M) : Bool × Ordered M :=
  if s.Contains m then
    let d := (goLookup s.idx m).getD 0
    let values := s.values.take d ++ s.values.drop (d + 1)
    let idx := renumber s.idx (values.drop d) d
    (true, ⟨goDelete idx m, values⟩)
  else (false, s)

/-- `Ordered.Cardinality` from `ordered.go` (`len(s.values)`). -/
def Ordered.Cardinality (s : Ordered M) : Nat :=
  s.values.length

/-- `Ordered.Clear` from `ordered.go`: empty both structures, return the old
element count. -/
def Ordered.Clear (s : Ordered M) : Nat × Ordered M :=
  (s.values.length, ⟨[], []⟩)

/-- `Ordered.At` from `ordered.go`: positional lookup guarded by the
out-of-range check `i < 0 || i >= len(s.values)`. -/
def Ordered.At (s : Ordered M) (i : Int) : M × Bool :=
  if i < 0 ∨ (s.values.length : Int) ≤ i then ((default : M), false)
  else (s.values.getD i.toNat default, true)

/-- `Ordered.Index` from `ordered.go`: reverse lookup, `-1` when absent. -/
def Ordered.Index (s : Ordered M) (m : M) : Int :=
  match goLookup s.idx m with
  | none => -1
  | some i => (i : Int)

/-- `NewOrderedFrom` from `ordered.go`: fold `Add` over the sequence. -/
def NewOrderedFromList (l : List M) : Ordered M :=
  l.foldl (fun s x => (s.Add x).2) NewOrdered

/-- The loop body of `AppendSeq` from `set.go`: add one element, counting it
when `Add` reports an actual insertion. -/
def appendStepOrdered (nm : Nat × Ordered M) (x : M) : Nat × Ordered M :=
  let r := nm.2.Add x
  (if r.1 then nm.1 + 1 else nm.1, r.2)

/-- `AppendSeq` from `set.go`, instantiated at the ordered container: add all
elements of the sequence, counting the ones actually added. -/
def AppendSeqOrdered (s : Ordered M) (l : List M) : Nat × Ordered M :=
  l.foldl appendStepOrdered (0, s)

/-- `Ordered.Iterator` yields `s.values` in order; `Clone` rebuilds a fresh
container from the iterator (`NewOrderedFrom(s.Iterator)`). -/
def Ordered.CloneOrdered (s : Ordered M) : Ordered M :=
  NewOrderedFromList s.values

end OrderedContainer

section MapContainer

variable {M : Type} [DecidableEq M]

/-- `Map[M]` from `map.go`: a Go `map[M]struct{}`, modelled as its key list. -/
structure MapSet (M : Type) where
  set : List M
  deriving Repr, DecidableEq

/-- `New` from `map.go`. -/
def NewMapSet : MapSet M := ⟨[]⟩

/-- `Map.Contains` from `map.go`. -/
def MapSet.Contains (s : MapSet M) (m : M) : Bool :=
  decide (m ∈ s.set)

/-- `Map.Add` from `map.go`. -/
def MapSet.Add (s : MapSet M) (m : M) : Bool × MapSet M :=
  if s.Contains m then (false, s) else (true, ⟨s.set ++ [m]⟩)

/-- `Map.Remove` from `map.go` (`delete(s.set, m)`). -/
def MapSet.Remove (s : MapSet M) (m : M) : Bool × MapSet M :=
  if s.Contains m then (true, ⟨s.set.filter (· ≠ m)⟩) else (false, s)

/-- `Map.Cardinality` from `map.go` (`len(s.set)`). -/
def MapSet.Cardinality (s : MapSet M) : Nat :=
  s.set.length

/-- `Map.Clear` from `map.go`. -/
def MapSet.Clear (s : MapSet M) : Nat × MapSet M :=
  (s.set.length, ⟨[]⟩)

/-- `Map.Iterator` yields the keys; `Clone` is `NewFrom(s.Iterator)`. -/
def MapSet.CloneMap (s : MapSet M) : MapSet M :=
  s.set.foldl (fun c x => (c.Add x).2) NewMapSet

end MapContainer

section SetAlgebra

variable {M : Type} [DecidableEq M]

/-- The loop of `ContainsSeq` from `set.go`, abstracted over the receiver the
way the Go function is generic over `Set[K]`: `contains` is `s.Contains` and
`cardZero` is the final `s.Cardinality() == 0` test.  `noitems` is the loop
accumulator of the source. -/
def containsSeqLoop (contains : M → Bool) (cardZero : Bool) :
    List M → Bool → Bool
  | [], noitems => (cardZero && noitems) || !noitems
  | k :: ks, _ => if !(contains k) then false else containsSeqLoop contains cardZero ks false

/-- `ContainsSeq` from `set.go`, instantiated at the map-backed set. -/
def ContainsSeqMap (s : MapSet M) (seq : List M) : Bool :=
  containsSeqLoop s.Contains (decide (s.Cardinality = 0)) seq true

/-- `Subset` from `set.go`, instantiated at the ordered container: iterate `a`
and test membership in `b`. -/
def Ordered.SubsetOf (a b : Ordered M) : Bool :=
  a.values.all (fun k => b.Contains k)

/-- `Equal` from `set.go` (`Subset(a, b) && Subset(b, a)`), at the ordered
container. -/
def Ordered.EqualSets (a b : Ordered M) : Bool :=
  a.SubsetOf b && b.SubsetOf a

/-- `Subset` from `set.go` at the map-backed set. -/
def MapSet.SubsetOf (a b : MapSet M) : Bool :=
  a.set.all (fun k => b.Contains k)

/-- `Equal` from `set.go` at the map-backed set. -/
def MapSet.EqualSets (a b : MapSet M) : Bool :=
  a.SubsetOf b && b.SubsetOf a

end SetAlgebra

example : (NewOrderedFromList [5, 3, 5, 2] : Ordered Nat).values = [5, 3, 2] := by decide
example : ((NewOrderedFromList [0, 1, 2, 3, 4] : Ordered Nat).Remove 2).2.values = [0, 1, 3, 4] := by decide
example : ((NewOrderedFromList [0, 1, 2, 3, 4] : Ordered Nat).Remove 2).2.Index 3 = 2 := by decide
example : ContainsSeqMap (⟨[1]⟩ : MapSet Nat) [] = false := by decide
example : ContainsSeqMap (⟨[]⟩ : MapSet Nat) [] = true := by decide
example : ContainsSeqMap (⟨[]⟩ : MapSet Nat) [1] = false := by decide

section OrderedInvariant

variable {M : Type} [DecidableEq M] [Inhabited M]

/-- The documented invariant of the ordered container: the reverse index and
the forward sequence agree exactly — every position maps back to itself
through `idx`, and every index entry is for an element of `values`. -/
def OrderedInv (s : Ordered M) : Prop :=
  (∀ i : Fin s.values.length, goLookup s.idx s.values[i.val] = some i.val) ∧
  (∀ p ∈ s.idx, p.1 ∈ s.values)

instance (s : Ordered M) : Decidable (OrderedInv s) := by
  unfold OrderedInv; infer_instance

theorem OrderedInv.nodup {s : Ordered M} (h : OrderedInv s) : s.values.Nodup := by
  rw [List.nodup_iff_injective_getElem]
  intro i j hij
  have h1 := h.1 i
  have h2 := h.1 j
  simp only at hij
  rw [hij, h2] at h1
  exact Fin.ext (Option.some.inj h1).symm

theorem OrderedInv.lookupEq {s : Ordered M} (h : OrderedInv s) {m : M} {d : Nat} :
    goLookup s.idx m = some d ↔ ∃ hd : d < s.values.length, s.values[d] = m := by
  constructor
  · intro hl
    have hm : m ∈ s.values := h.2 (m, d) (goLookup_mem hl)
    obtain ⟨n, hn, hv⟩ := List.mem_iff_getElem.1 hm
    have h1 := h.1 ⟨n, hn⟩
    simp only at h1
    rw [hv, hl] at h1
    obtain rfl : d = n := Option.some.inj h1
    exact ⟨hn, hv⟩
  · rintro ⟨hd, rfl⟩
    exact h.1 ⟨d, hd⟩

theorem OrderedInv.containsIff {s : Ordered M} (h : OrderedInv s) {m : M} :
    s.Contains m = true ↔ m ∈ s.values := by
  unfold Ordered.Contains
  rw [Option.isSome_iff_exists]
  constructor
  · rintro ⟨d, hd⟩
    obtain ⟨h1, h2⟩ := h.lookupEq.1 hd
    exact h2 ▸ List.getElem_mem h1
  · intro hm
    obtain ⟨n, hn, hv⟩ := List.mem_iff_getElem.1 hm
    exact ⟨n, h.lookupEq.2 ⟨hn, hv⟩⟩

theorem mem_goInsert {l : List (M × Nat)} {k : M} {v : Nat} {p : M × Nat}
    (h : p ∈ goInsert l k v) : p = (k, v) ∨ p ∈ l := by
  induction l with
  | nil => simpa [goInsert] using h
  | cons q t ih =>
    obtain ⟨qk, qv⟩ := q
    by_cases hq : qk = k
    · subst hq
      simp only [goInsert, if_true, eq_self_iff_true, List.mem_cons, ite_true] at h
      rcases h with h | h
      · exact Or.inl h
      · exact Or.inr (List.mem_cons_of_mem _ h)
    · simp only [goInsert, if_neg hq, List.mem_cons] at h
      rcases h with h | h
      · exact Or.inr (List.mem_cons.2 (Or.inl h))
      · rcases ih h with h1 | h1
        · exact Or.inl h1
        · exact Or.inr (List.mem_cons_of_mem _ h1)

theorem mem_goDelete {l : List (M × Nat)} {k : M} {p : M × Nat}
    (h : p ∈ goDelete l k) : p ∈ l ∧ p.1 ≠ k := by
  induction l with
  | nil => simp [goDelete] at h
  | cons q t ih =>
    obtain ⟨qk, qv⟩ := q
    by_cases hq : qk = k
    · subst hq
      simp only [goDelete, if_true, eq_self_iff_true, ite_true] at h
      obtain ⟨h1, h2⟩ := ih h
      exact ⟨List.mem_cons_of_mem _ h1, h2⟩
    · simp only [goDelete, if_neg hq, List.mem_cons] at h
      rcases h with h | h
      · subst h
        exact ⟨List.mem_cons_self _ _, hq⟩
      · obtain ⟨h1, h2⟩ := ih h
        exact ⟨List.mem_cons_of_mem _ h1, h2⟩

theorem mem_renumber {vs : List M} {idx : List (M × Nat)} {j : Nat} {p : M × Nat}
    (h : p ∈ renumber idx vs j) : p ∈ idx ∨ p.1 ∈ vs := by
  induction vs generalizing idx j with
  | nil => exact Or.inl h
  | cons v t ih =>
    simp only [renumber] at h
    rcases ih h with h1 | h1
    · rcases mem_goInsert h1 with h2 | h2
      · subst h2
        exact Or.inr (List.mem_cons_self _ _)
      · exact Or.inl h2
    · exact Or.inr (List.mem_cons_of_mem _ h1)

theorem renumber_lookup_not_mem {vs : List M} (idx : List (M × Nat)) (j : Nat) {k : M}
    (h : k ∉ vs) : goLookup (renumber idx vs j) k = goLookup idx k := by
  induction vs generalizing idx j with
  | nil => rfl
  | cons v t ih =>
    simp only [renumber]
    rw [ih _ _ (fun hm => h (List.mem_cons_of_mem _ hm))]
    rw [goLookup_goInsert]
    have hv : ¬ v = k := fun hh => h (List.mem_cons.2 (Or.inl hh.symm))
    simp [hv]

theorem renumber_lookup_mem {vs : List M} (hnd : vs.Nodup) (idx : List (M × Nat)) (j : Nat)
    (i : Nat) (hi : i < vs.length) :
    goLookup (renumber idx vs j) vs[i] = some (j + i) := by
  induction vs generalizing idx j i with
  | nil => simp at hi
  | cons v t ih =>
    simp only [renumber]
    match i with
    | 0 =>
      have hv : v ∉ t := (List.nodup_cons.1 hnd).1
      simp only [List.getElem_cons_zero]
      rw [renumber_lookup_not_mem _ _ hv, goLookup_goInsert]
      simp
    | Nat.succ i2 =>
      simp only [List.getElem_cons_succ]
      rw [ih (List.nodup_cons.1 hnd).2 (goInsert idx v j) (j + 1) i2 (by
        simpa [Nat.succ_lt_succ_iff] using hi)]
      congr 1
      omega

end OrderedInvariant

section OrderedPreservation

variable {M : Type} [DecidableEq M] [Inhabited M]

theorem add_of_contains {s : Ordered M} {m : M} (h : s.Contains m = true) :
    s.Add m = (false, s) := by
  simp [Ordered.Add, h]

theorem add_of_not_contains {s : Ordered M} {m : M} (h : s.Contains m = false) :
    s.Add m = (true, ⟨goInsert s.idx m s.values.length, s.values ++ [m]⟩) := by
  have hl : (s.values ++ [m]).length - 1 = s.values.length := by simp
  simp [Ordered.Add, h, hl]

theorem not_contains_not_mem {s : Ordered M} (hInv : OrderedInv s) {m : M}
    (h : s.Contains m = false) : m ∉ s.values := by
  intro hm
  have := hInv.containsIff.2 hm
  rw [h] at this
  cases this

theorem add_inv {s : Ordered M} (hInv : OrderedInv s) (m : M) :
    OrderedInv (s.Add m).2 := by
  by_cases hc : s.Contains m = true
  · rw [add_of_contains hc]; exact hInv
  · have hc2 : s.Contains m = false := by simpa using hc
    rw [add_of_not_contains hc2]
    have hnm : m ∉ s.values := not_contains_not_mem hInv hc2
    constructor
    · intro i
      have hi := i.2
      simp only [List.length_append, List.length_cons, List.length_nil] at hi
      by_cases hlt : i.val < s.values.length
      · have hget : (s.values ++ [m])[i.val] = s.values[i.val] :=
          List.getElem_append_left hlt
        simp only [hget]
        rw [goLookup_goInsert]
        have hne : ¬ m = s.values[i.val] := fun hh => hnm (hh ▸ List.getElem_mem hlt)
        rw [if_neg hne]
        exact hInv.1 ⟨i.val, hlt⟩
      · have heq : i.val = s.values.length := by omega
        have hget : (s.values ++ [m])[i.val] = m := by
          rw [List.getElem_append_right (by omega)]
          simp [heq]
        simp only [hget]
        rw [goLookup_goInsert, if_pos rfl, heq]
    · intro p hp
      rcases mem_goInsert hp with h1 | h1
      · subst h1
        simp
      · exact List.mem_append_left _ (hInv.2 p h1)

theorem remove_of_not_contains {s : Ordered M} {m : M} (h : s.Contains m = false) :
    s.Remove m = (false, s) := by
  simp [Ordered.Remove, h]

theorem remove_result {s : Ordered M} {m : M} {d : Nat} (hInv : OrderedInv s)
    (hd : goLookup s.idx m = some d) :
    s.Remove m =
      (true, ⟨goDelete (renumber s.idx (s.values.drop (d + 1)) d) m, s.values.eraseIdx d⟩) := by
  have hc : s.Contains m = true := by simp [Ordered.Contains, hd]
  have hlt : d < s.values.length := (hInv.lookupEq.1 hd).1
  have hl : (s.values.take d).length = d := by
    rw [List.length_take]; omega
  have hdrop : (s.values.take d ++ s.values.drop (d + 1)).drop d = s.values.drop (d + 1) := by
    have h7 := List.drop_left (s.values.take d) (s.values.drop (d + 1))
    rwa [hl] at h7
  have he : s.values.take d ++ s.values.drop (d + 1) = s.values.eraseIdx d :=
    (List.eraseIdx_eq_take_drop_succ _ _).symm
  simp only [Ordered.Remove, hc, if_true, hd, Option.getD_some]
  rw [hdrop, he]

theorem remove_inv_fst {s : Ordered M} (hInv : OrderedInv s) {m : M} {d : Nat}
    (hd : goLookup s.idx m = some d) (i : Nat) (hi : i < (s.values.eraseIdx d).length) :
    goLookup (goDelete (renumber s.idx (s.values.drop (d + 1)) d) m)
      ((s.values.eraseIdx d)[i]) = some i := by
  obtain ⟨hlt, hval⟩ := hInv.lookupEq.1 hd
  have hnd : s.values.Nodup := hInv.nodup
  have hinj := List.nodup_iff_injective_getElem.1 hnd
  have hlen : (s.values.eraseIdx d).length = s.values.length - 1 := by
    rw [List.length_eraseIdx]; simp [hlt]
  have hdropnd : (s.values.drop (d + 1)).Nodup :=
    (List.drop_sublist _ _).nodup hnd
  have hib : i < s.values.length - 1 := by omega
  by_cases hid : i < d
  · have hget : (s.values.eraseIdx d)[i] = s.values[i] := by
      rw [List.getElem_eraseIdx]
      simp [hid]
    rw [hget]
    have hnmem : s.values[i] ∉ s.values.drop (d + 1) := by
      intro hmem
      obtain ⟨j, hj, hjv⟩ := List.mem_iff_getElem.1 hmem
      rw [List.getElem_drop] at hjv
      have h5 := @hinj ⟨d + 1 + j, by simp at hj; omega⟩ ⟨i, by omega⟩ hjv
      have h6 := Fin.val_eq_of_eq h5
      simp at h6
      omega
    have hne : ¬ s.values[i] = m := by
      intro hh
      rw [← hval] at hh
      have h5 := @hinj ⟨i, by omega⟩ ⟨d, hlt⟩ hh
      have h6 := Fin.val_eq_of_eq h5
      simp at h6
      omega
    rw [goLookup_goDelete, if_neg hne, renumber_lookup_not_mem _ _ hnmem]
    exact hInv.1 ⟨i, by omega⟩
  · have hget : (s.values.eraseIdx d)[i] = s.values[i + 1] := by
      rw [List.getElem_eraseIdx]
      simp [hid]
    rw [hget]
    have hjb : i - d < (s.values.drop (d + 1)).length := by
      rw [List.length_drop]; omega
    have hgd : (s.values.drop (d + 1))[i - d] = s.values[i + 1] := by
      rw [List.getElem_drop]
      congr 1
      omega
    have hne : ¬ (s.values.drop (d + 1))[i - d] = m := by
      rw [hgd]
      intro hh
      rw [← hval] at hh
      have h5 := @hinj ⟨i + 1, by omega⟩ ⟨d, hlt⟩ hh
      have h6 := Fin.val_eq_of_eq h5
      simp at h6
      omega
    rw [← hgd, goLookup_goDelete, if_neg hne, renumber_lookup_mem hdropnd _ _ _ hjb]
    congr 1
    omega

theorem remove_inv_snd {s : Ordered M} (hInv : OrderedInv s) {m : M} {d : Nat}
    (hd : goLookup s.idx m = some d) (p : M × Nat)
    (hp : p ∈ goDelete (renumber s.idx (s.values.drop (d + 1)) d) m) :
    p.1 ∈ s.values.eraseIdx d := by
  obtain ⟨hlt, hval⟩ := hInv.lookupEq.1 hd
  obtain ⟨hp1, hp2⟩ := mem_goDelete hp
  have hsplit : s.values.eraseIdx d = s.values.take d ++ s.values.drop (d + 1) :=
    List.eraseIdx_eq_take_drop_succ _ _
  rcases mem_renumber hp1 with h1 | h1
  · have hmem : p.1 ∈ s.values := hInv.2 p h1
    obtain ⟨j, hj, hjv⟩ := List.mem_iff_getElem.1 hmem
    have hjd : j ≠ d := by
      intro hh
      subst hh
      exact hp2 (hjv.symm.trans hval)
    rw [List.mem_eraseIdx_iff_getElem?]
    exact ⟨j, hjd, by rw [List.getElem?_eq_getElem hj, hjv]⟩
  · rw [hsplit]
    exact List.mem_append_right _ h1

theorem remove_inv {s : Ordered M} (hInv : OrderedInv s) (m : M) :
    OrderedInv (s.Remove m).2 := by
  by_cases hc : s.Contains m = true
  · obtain ⟨d, hd⟩ := Option.isSome_iff_exists.1 hc
    rw [remove_result hInv hd]
    exact ⟨fun i => remove_inv_fst hInv hd i.val i.2,
      fun p hp => remove_inv_snd hInv hd p hp⟩
  · have hc2 : s.Contains m = false := by simpa using hc
    rw [remove_of_not_contains hc2]
    exact hInv

end OrderedPreservation

section OrderedReach

variable {M : Type} [DecidableEq M] [Inhabited M]

/-- A mutation of the ordered container, for quantifying over call sequences. -/
inductive OrdOp (M : Type) where
  | add (m : M)
  | remove (m : M)
  deriving Repr, DecidableEq

def applyOrdOp (s : Ordered M) : OrdOp M → Ordered M
  | .add m => (s.Add m).2
  | .remove m => (s.Remove m).2

/-- The ordered container obtained from `NewOrdered` by a sequence of
`Add`/`Remove` calls. -/
def applyOrdOps (ops : List (OrdOp M)) : Ordered M :=
  ops.foldl applyOrdOp NewOrdered

theorem newOrdered_inv : OrderedInv (NewOrdered : Ordered M) := by
  constructor
  · intro i
    exact absurd i.2 (by simp [NewOrdered])
  · intro p hp
    simp [NewOrdered] at hp

theorem applyOrdOp_inv {s : Ordered M} (h : OrderedInv s) (op : OrdOp M) :
    OrderedInv (applyOrdOp s op) := by
  cases op with
  | add m => exact add_inv h m
  | remove m => exact remove_inv h m

theorem foldl_applyOrdOp_inv (l : List (OrdOp M)) (s : Ordered M) (hs : OrderedInv s) :
    OrderedInv (l.foldl applyOrdOp s) := by
  induction l generalizing s with
  | nil => exact hs
  | cons op t ih => exact ih _ (applyOrdOp_inv hs op)

theorem applyOrdOps_inv (ops : List (OrdOp M)) : OrderedInv (applyOrdOps ops) :=
  foldl_applyOrdOp_inv ops NewOrdered newOrdered_inv

end OrderedReach

section Claim3

variable {M : Type} [DecidableEq M] [Inhabited M]

/-- C3: for every ordered container reached by a finite sequence of `Add` and
`Remove` calls and every position `i` below the cardinality, `At i` returns
some element with `ok = true`, and `Index` of that element is exactly `i`:
forward sequence and reverse index agree. -/
theorem c3_ordered_at_index_roundtrip (ops : List (OrdOp M)) (i : Nat)
    (hi : i < (applyOrdOps ops).Cardinality) :
    ∃ v : M, (applyOrdOps ops).At (i : Int) = (v, true) ∧
      (applyOrdOps ops).Index v = (i : Int) := by
  have hInv := applyOrdOps_inv (ops : List (OrdOp M))
  have hi2 : i < (applyOrdOps ops).values.length := hi
  refine ⟨(applyOrdOps ops).values[i], ?_, ?_⟩
  · unfold Ordered.At
    have hcond : ¬ ((i : Int) < 0 ∨ ((applyOrdOps ops).values.length : Int) ≤ (i : Int)) := by
      push_neg
      constructor
      · exact Int.ofNat_nonneg i
      · exact_mod_cast hi2
    rw [if_neg hcond]
    have ht : ((i : Int)).toNat = i := Int.toNat_ofNat i
    rw [ht, List.getD_eq_getElem _ _ hi2]
  · have hl := hInv.1 ⟨i, hi2⟩
    unfold Ordered.Index
    simp only at hl
    rw [hl]

/-- Witness for C3 at a concrete call sequence including a removal. -/
theorem c3_witness :
    1 < (applyOrdOps [OrdOp.add 5, OrdOp.add 3, OrdOp.add 7, OrdOp.remove 3]
          : Ordered Nat).Cardinality ∧
    ∃ v : Nat,
      (applyOrdOps [OrdOp.add 5, OrdOp.add 3, OrdOp.add 7, OrdOp.remove 3]).At (1 : Int)
        = (v, true) ∧
      (applyOrdOps [OrdOp.add 5, OrdOp.add 3, OrdOp.add 7, OrdOp.remove 3]).Index v
        = (1 : Int) :=
  ⟨by decide, c3_ordered_at_index_roundtrip _ 1 (by decide)⟩

end Claim3

section Claim4

variable {M : Type} [DecidableEq M] [Inhabited M]

theorem getElem_ne_of_ne {l : List M} (hnd : l.Nodup) {i j : Nat} (hi : i < l.length)
    (hj : j < l.length) (hij : i ≠ j) : l[i] ≠ l[j] := by
  intro hh
  have hinj := List.nodup_iff_injective_getElem.1 hnd
  have h5 := @hinj ⟨i, hi⟩ ⟨j, hj⟩ hh
  exact hij (by simpa using Fin.val_eq_of_eq h5)

theorem not_mem_drop {l : List M} (hnd : l.Nodup) {i k : Nat} (hi : i < l.length)
    (hik : i < k) : l[i] ∉ l.drop k := by
  intro hmem
  obtain ⟨j, hj, hjv⟩ := List.mem_iff_getElem.1 hmem
  rw [List.getElem_drop] at hjv
  have hb : k + j < l.length := by
    rw [List.length_drop] at hj
    omega
  exact getElem_ne_of_ne hnd hb hi (by omega) hjv

theorem eraseIdx_eq_erase {l : List M} {d : Nat} {e : M} (hnd : l.Nodup)
    (hdl : d < l.length) (he : l[d] = e) : l.eraseIdx d = l.erase e := by
  induction l generalizing d with
  | nil => simp at hdl
  | cons a t ih =>
    match d with
    | 0 =>
      simp only [List.getElem_cons_zero] at he
      subst he
      simp [List.eraseIdx]
    | Nat.succ d2 =>
      simp only [List.getElem_cons_succ] at he
      have hdl2 : d2 < t.length := by
        simp only [List.length_cons] at hdl
        omega
      have hmem : e ∈ t := he ▸ List.getElem_mem hdl2
      have ha : ¬ a = e := fun hh => (List.nodup_cons.1 hnd).1 (hh ▸ hmem)
      rw [List.eraseIdx_cons_succ, List.erase_cons_tail (by simpa using ha),
        ih (List.nodup_cons.1 hnd).2 hdl2 he]

/-- C4: removing a present element `e` (recorded at position `d`) deletes its
slot — the remaining sequence is exactly the old one with `e` erased, order
preserved — and renumbers: every element previously above `d` has its recorded
index decremented by one while elements below `d` keep theirs. -/
theorem c4_remove_renumbers (s : Ordered M) (e : M) (d : Nat)
    (hInv : OrderedInv s) (hd : goLookup s.idx e = some d) :
    (s.Remove e).1 = true ∧
    (s.Remove e).2.values = s.values.erase e ∧
    (∀ v j, goLookup s.idx v = some j → d < j →
      goLookup (s.Remove e).2.idx v = some (j - 1)) ∧
    (∀ v j, goLookup s.idx v = some j → j < d →
      goLookup (s.Remove e).2.idx v = some j) := by
  obtain ⟨hlt, hval⟩ := hInv.lookupEq.1 hd
  have hnd := hInv.nodup
  have hres := remove_result hInv hd
  refine ⟨by rw [hres], ?_, ?_, ?_⟩
  · rw [hres]
    exact eraseIdx_eq_erase hnd hlt hval
  · intro v j hj hdj
    obtain ⟨hjl, hjv⟩ := hInv.lookupEq.1 hj
    rw [hres]
    show goLookup (goDelete (renumber s.idx (s.values.drop (d + 1)) d) e) v = some (j - 1)
    have hvne : v ≠ e := by
      rw [← hjv, ← hval]
      exact getElem_ne_of_ne hnd hjl hlt (by omega)
    rw [goLookup_goDelete, if_neg hvne]
    have hjb : j - (d + 1) < (s.values.drop (d + 1)).length := by
      rw [List.length_drop]
      omega
    have hgd : (s.values.drop (d + 1))[j - (d + 1)] = s.values[j] := by
      rw [List.getElem_drop]
      congr 1
      omega
    rw [← hjv, ← hgd,
      renumber_lookup_mem ((List.drop_sublist _ _).nodup hnd) _ _ _ hjb]
    congr 1
    omega
  · intro v j hj hjd
    obtain ⟨hjl, hjv⟩ := hInv.lookupEq.1 hj
    rw [hres]
    show goLookup (goDelete (renumber s.idx (s.values.drop (d + 1)) d) e) v = some j
    have hvne : v ≠ e := by
      rw [← hjv, ← hval]
      exact getElem_ne_of_ne hnd hjl hlt (by omega)
    rw [goLookup_goDelete, if_neg hvne]
    have hnm : v ∉ s.values.drop (d + 1) := by
      rw [← hjv]
      exact not_mem_drop hnd hjl (by omega)
    rw [renumber_lookup_not_mem _ _ hnm]
    exact hj

/-- Witness for C4: the documented scenario — removing the value `2` from the
ordered set `[0,1,2,3,4]` leaves `[0,1,3,4]` and `Index 3 = 2` afterwards. -/
theorem c4_witness :
    OrderedInv (NewOrderedFromList [0, 1, 2, 3, 4] : Ordered Nat) ∧
    goLookup (NewOrderedFromList [0, 1, 2, 3, 4] : Ordered Nat).idx 2 = some 2 ∧
    ((NewOrderedFromList [0, 1, 2, 3, 4] : Ordered Nat).Remove 2).1 = true ∧
    ((NewOrderedFromList [0, 1, 2, 3, 4] : Ordered Nat).Remove 2).2.values = [0, 1, 3, 4] ∧
    ((NewOrderedFromList [0, 1, 2, 3, 4] : Ordered Nat).Remove 2).2.Index 3 = 2 :=
  ⟨by decide, by decide,
    (c4_remove_renumbers (NewOrderedFromList [0, 1, 2, 3, 4]) 2 2 (by decide) (by decide)).1,
    by decide, by decide⟩

end Claim4

section Claim7

variable {M : Type} [DecidableEq M] [Inhabited M]

theorem mapset_add_of_contains {s : MapSet M} {m : M} (h : s.Contains m = true) :
    s.Add m = (false, s) := by
  simp [MapSet.Add, h]

theorem mapset_add_of_not_contains {s : MapSet M} {m : M} (h : s.Contains m = false) :
    s.Add m = (true, ⟨s.set ++ [m]⟩) := by
  simp [MapSet.Add, h]

theorem mapset_add_snd_contains (s : MapSet M) (m : M) :
    (s.Add m).2.Contains m = true := by
  by_cases h : s.Contains m = true
  · rw [mapset_add_of_contains h]
    exact h
  · have h2 : s.Contains m = false := by simpa using h
    rw [mapset_add_of_not_contains h2]
    simp [MapSet.Contains]

theorem ordered_add_snd_contains (s : Ordered M) (m : M) :
    (s.Add m).2.Contains m = true := by
  by_cases h : s.Contains m = true
  · rw [add_of_contains h]
    exact h
  · have h2 : s.Contains m = false := by simpa using h
    rw [add_of_not_contains h2]
    simp [Ordered.Contains, goLookup_goInsert]

/-- C7: `Add e` returns `true` exactly when `e` was absent, and is a no-op
returning `false` when present; in particular a second `Add e` right after a
first one returns `false` and leaves the cardinality unchanged.  Proved for
both the map-backed and the ordered container. -/
theorem c7_add_reports_membership_change (s : MapSet M) (so : Ordered M) (e : M) :
    ((s.Add e).1 = !(s.Contains e)) ∧
    (((s.Add e).2.Add e).1 = false ∧
      ((s.Add e).2.Add e).2.Cardinality = (s.Add e).2.Cardinality) ∧
    ((so.Add e).1 = !(so.Contains e)) ∧
    (((so.Add e).2.Add e).1 = false ∧
      ((so.Add e).2.Add e).2.Cardinality = (so.Add e).2.Cardinality) := by
  have hm := mapset_add_snd_contains s e
  have ho := ordered_add_snd_contains so e
  refine ⟨?_, ?_, ?_, ?_⟩
  · by_cases h : s.Contains e = true
    · rw [mapset_add_of_contains h, h]; rfl
    · have h2 : s.Contains e = false := by simpa using h
      rw [mapset_add_of_not_contains h2, h2]; rfl
  · rw [mapset_add_of_contains hm]
    exact ⟨rfl, rfl⟩
  · by_cases h : so.Contains e = true
    · rw [add_of_contains h, h]; rfl
    · have h2 : so.Contains e = false := by simpa using h
      rw [add_of_not_contains h2, h2]; rfl
  · rw [add_of_contains ho]
    exact ⟨rfl, rfl⟩

end Claim7

section Claim8

variable {M : Type} [DecidableEq M] [Inhabited M]

/-- C8: `At i` never faults: it answers `(zero value, false)` whenever
`i < 0` or `i ≥ Cardinality()`, and `(element at position i, true)`
otherwise. -/
theorem c8_at_never_faults (s : Ordered M) (i : Int) :
    ((i < 0 ∨ (s.Cardinality : Int) ≤ i) → s.At i = ((default : M), false)) ∧
    (0 ≤ i → i < (s.Cardinality : Int) →
      ∃ hh : i.toNat < s.values.length, s.At i = (s.values.get ⟨i.toNat, hh⟩, true)) := by
  constructor
  · intro h
    have h2 : i < 0 ∨ (s.values.length : Int) ≤ i := h
    unfold Ordered.At
    rw [if_pos h2]
  · intro h1 h2
    have hcard : (s.Cardinality : Int) = (s.values.length : Int) := rfl
    rw [hcard] at h2
    have hh : i.toNat < s.values.length := by omega
    refine ⟨hh, ?_⟩
    unfold Ordered.At
    rw [if_neg (by omega)]
    rw [List.getD_eq_getElem _ _ hh]
    rfl

/-- Witness for C8: negative index, too-large index, and an in-range index on
a concrete two-element ordered set. -/
theorem c8_witness :
    ((NewOrderedFromList [7, 8] : Ordered Nat).At (-1) = (default, false)) ∧
    ((NewOrderedFromList [7, 8] : Ordered Nat).At 5 = (default, false)) ∧
    ((NewOrderedFromList [7, 8] : Ordered Nat).At 1 = (8, true)) := by
  refine ⟨(c8_at_never_faults _ _).1 (by decide), (c8_at_never_faults _ _).1 (by decide), ?_⟩
  obtain ⟨hh, heq⟩ := (c8_at_never_faults (NewOrderedFromList [7, 8] : Ordered Nat) 1).2
    (by decide) (by decide)
  exact heq.trans rfl

end Claim8

section Claim2

variable {M : Type} [DecidableEq M]

theorem containsSeqLoop_false (contains : M → Bool) (cz : Bool) (l : List M) :
    containsSeqLoop contains cz l false = l.all contains := by
  induction l with
  | nil => simp [containsSeqLoop]
  | cons k t ih =>
    by_cases h : contains k = true
    · simp [containsSeqLoop, h, ih]
    · have h2 : contains k = false := by simpa using h
      simp [containsSeqLoop, h2]

/-- C2 counterexample: `ContainsSeq` on the one-element set `{1}` and the
empty sequence returns `false`, although every element of the empty sequence
is (vacuously) in the set — the claimed "iff" fails there. -/
theorem c2_counterexample :
    ¬ (ContainsSeqMap (⟨[1]⟩ : MapSet Nat) [] = true ↔
        ∀ k ∈ ([] : List Nat), (⟨[1]⟩ : MapSet Nat).Contains k = true) := by
  decide

/-- C2 (amended): `ContainsSeq(s, seq)` returns `true` iff either `seq` is
non-empty and every element of `seq` is in `s`, or `seq` is empty and `s` is
empty.  The documented particular cases hold: empty sequence against empty set
is `true`; a non-empty sequence against an empty set is `false`. -/
theorem c2_containsSeq_characterization (s : MapSet M) (seq : List M) :
    ContainsSeqMap s seq = true ↔
      ((seq ≠ [] ∧ ∀ k ∈ seq, s.Contains k = true) ∨
        (seq = [] ∧ s.Cardinality = 0)) := by
  unfold ContainsSeqMap
  cases seq with
  | nil =>
    simp [containsSeqLoop]
  | cons k t =>
    by_cases h : s.Contains k = true
    · simp only [containsSeqLoop, h]
      rw [containsSeqLoop_false]
      simp [h, List.all_eq_true]
    · have h2 : s.Contains k = false := by simpa using h
      simp [containsSeqLoop, h2]

end Claim2

section Claim6

variable {M : Type} [DecidableEq M] [Inhabited M]

/-- Specification helper for C6: the elements of `l` that are new relative to
the already-present `vs`, first occurrence winning, in sequence order. -/
def newElems (vs : List M) : List M → List M
  | [] => []
  | k :: ks => if k ∈ vs then newElems vs ks else k :: newElems (vs ++ [k]) ks

theorem appendStepOrdered_contains {acc : Nat × Ordered M} {k : M}
    (hc : acc.2.Contains k = true) : appendStepOrdered acc k = acc := by
  unfold appendStepOrdered
  rw [add_of_contains hc]
  simp

theorem appendStepOrdered_new {acc : Nat × Ordered M} {k : M}
    (hc : acc.2.Contains k = false) :
    appendStepOrdered acc k =
      (acc.1 + 1, ⟨goInsert acc.2.idx k acc.2.values.length, acc.2.values ++ [k]⟩) := by
  unfold appendStepOrdered
  rw [add_of_not_contains hc]
  rfl

theorem appendSeqOrdered_fold (l : List M) (acc : Nat × Ordered M)
    (hInv : OrderedInv acc.2) :
    (l.foldl appendStepOrdered acc).2.values =
      acc.2.values ++ newElems acc.2.values l := by
  induction l generalizing acc with
  | nil => simp [newElems]
  | cons k t ih =>
    by_cases h : k ∈ acc.2.values
    · have hc : acc.2.Contains k = true := hInv.containsIff.2 h
      rw [List.foldl_cons, appendStepOrdered_contains hc, ih acc hInv]
      simp [newElems, h]
    · have hc : acc.2.Contains k = false := by
        by_contra hc2
        exact h (hInv.containsIff.1 (by simpa using hc2))
      have hInv2 : OrderedInv (⟨goInsert acc.2.idx k acc.2.values.length,
          acc.2.values ++ [k]⟩ : Ordered M) := by
        have h3 := add_inv hInv k
        rwa [add_of_not_contains hc] at h3
      rw [List.foldl_cons, appendStepOrdered_new hc,
        ih (acc.1 + 1, ⟨goInsert acc.2.idx k acc.2.values.length, acc.2.values ++ [k]⟩) hInv2]
      simp [newElems, h, List.append_assoc]

theorem newOrderedFromList_eq_fold (l : List M) (s : Ordered M) (n : Nat) :
    l.foldl (fun s x => (s.Add x).2) s = (l.foldl appendStepOrdered (n, s)).2 := by
  induction l generalizing s n with
  | nil => rfl
  | cons k t ih =>
    rw [List.foldl_cons, List.foldl_cons]
    have hstep : (appendStepOrdered (n, s) k).2 = (s.Add k).2 := rfl
    rw [show appendStepOrdered (n, s) k =
      ((appendStepOrdered (n, s) k).1, (s.Add k).2) from rfl]
    exact ih _ _

/-- C6: appending a sequence to an ordered set adds exactly the elements not
already present, at the end, in sequence order with first occurrence winning;
creating from a sequence is the special case of the empty set, so duplicates
collapse with the first occurrence fixing the position. -/
theorem c6_append_adds_only_new (s : Ordered M) (l : List M) (hInv : OrderedInv s) :
    (AppendSeqOrdered s l).2.values = s.values ++ newElems s.values l ∧
    ∀ l2 : List M, (NewOrderedFromList l2 : Ordered M).values = newElems [] l2 := by
  constructor
  · exact appendSeqOrdered_fold l (0, s) hInv
  · intro l2
    unfold NewOrderedFromList
    rw [newOrderedFromList_eq_fold l2 NewOrdered 0]
    exact appendSeqOrdered_fold l2 (0, NewOrdered) newOrdered_inv

/-- Witness for C6: the documented scenario — start from ordered `[5,3]`,
append `[2,4,1]` and then `[5,6,1]`; the resulting order is
`[5,3,2,4,1,6]`. -/
theorem c6_witness :
    OrderedInv (AppendSeqOrdered (NewOrderedFromList [5, 3] : Ordered Nat) [2, 4, 1]).2 ∧
    (AppendSeqOrdered (AppendSeqOrdered (NewOrderedFromList [5, 3] : Ordered Nat)
      [2, 4, 1]).2 [5, 6, 1]).2.values = [5, 3, 2, 4, 1, 6] := by
  refine ⟨by decide, ?_⟩
  have h := (c6_append_adds_only_new
    (AppendSeqOrdered (NewOrderedFromList [5, 3] : Ordered Nat) [2, 4, 1]).2
    [5, 6, 1] (by decide)).1
  rw [h]
  decide

end Claim6

section Claim10

variable {M : Type} [DecidableEq M]

/-- The concrete set kinds of the package, as a closed world for modelling the
`set.(Locker)` interface type-assertion of `NewLockedWrapping` /
`NewLockedOrderedWrapping`: the map-backed `Map`, the insertion-ordered
`Ordered`, the `sync.Map`-backed `SyncMapSet`, and the two read-write-mutex
wrappers `Locked` and `LockedOrdered` (which embed `sync.RWMutex` and hence
have the `Lock`/`Unlock`/`RLock`/`RUnlock` methods of the `Locker`
interface of `locker.go`). -/
inductive SetImpl (M : Type) where
  | mapSet (s : MapSet M)
  | ordered (s : Ordered M)
  | syncMap (s : List M)
  | locked (inner : SetImpl M)
  | lockedOrdered (inner : SetImpl M)
  deriving Repr, DecidableEq

/-- Whether the dynamic type satisfies the `Locker` interface of `locker.go`
(`Lock`, `Unlock`, `RLock`, `RUnlock`): only the wrapper types embed
`sync.RWMutex`. -/
def SetImpl.isLocker : SetImpl M → Bool
  | .locked _ => true
  | .lockedOrdered _ => true
  | _ => false

/-- `NewLockedWrapping` from `locked.go`: return the set unchanged when it
already satisfies `Locker`, otherwise wrap it in a fresh `Locked` delegating
to it. -/
def NewLockedWrapping (s : SetImpl M) : SetImpl M :=
  if s.isLocker then s else .locked s

/-- `NewLockedOrderedWrapping` from `locked_ordered.go`. -/
def NewLockedOrderedWrapping (s : SetImpl M) : SetImpl M :=
  if s.isLocker then s else .lockedOrdered s

/-- C10: both wrapping constructors return the argument itself when it already
satisfies `Locker`, wrap it exactly once otherwise, and are idempotent: a
second application returns the already-wrapped set unchanged, so no double
layer of locking ever arises. -/
theorem c10_wrapping_idempotent (s : SetImpl M) :
    (s.isLocker = true → NewLockedWrapping s = s) ∧
    (s.isLocker = false → NewLockedWrapping s = .locked s) ∧
    NewLockedWrapping (NewLockedWrapping s) = NewLockedWrapping s ∧
    (s.isLocker = true → NewLockedOrderedWrapping s = s) ∧
    (s.isLocker = false → NewLockedOrderedWrapping s = .lockedOrdered s) ∧
    NewLockedOrderedWrapping (NewLockedOrderedWrapping s) = NewLockedOrderedWrapping s := by
  by_cases h : s.isLocker = true
  · refine ⟨fun _ => ?_, fun h2 => ?_, ?_, fun _ => ?_, fun h2 => ?_, ?_⟩ <;>
      simp [NewLockedWrapping, NewLockedOrderedWrapping, h] at *
  · have h2 : s.isLocker = false := by simpa using h
    have e1 : NewLockedWrapping s = .locked s := by simp [NewLockedWrapping, h2]
    have e2 : NewLockedOrderedWrapping s = .lockedOrdered s := by
      simp [NewLockedOrderedWrapping, h2]
    refine ⟨fun h3 => ?_, fun _ => e1, ?_, fun h3 => ?_, fun _ => e2, ?_⟩
    · rw [h3] at h2; cases h2
    · rw [e1]
      have e3 : (SetImpl.locked s).isLocker = true := rfl
      simp [NewLockedWrapping, e3]
    · rw [h3] at h2; cases h2
    · rw [e2]
      have e4 : (SetImpl.lockedOrdered s).isLocker = true := rfl
      simp [NewLockedOrderedWrapping, e4]

/-- Witness for C10 at concrete inputs: wrapping a bare map-backed set wraps
it once, wrapping the result returns it unchanged. -/
theorem c10_witness :
    ((SetImpl.mapSet (⟨[1]⟩ : MapSet Nat)).isLocker = false →
      NewLockedWrapping (SetImpl.mapSet (⟨[1]⟩ : MapSet Nat)) =
        .locked (.mapSet ⟨[1]⟩)) ∧
    ((SetImpl.locked (.mapSet (⟨[1]⟩ : MapSet Nat))).isLocker = true →
      NewLockedWrapping (SetImpl.locked (.mapSet (⟨[1]⟩ : MapSet Nat))) =
        .locked (.mapSet ⟨[1]⟩)) :=
  ⟨fun h => (c10_wrapping_idempotent (SetImpl.mapSet ⟨[1]⟩)).2.1 h,
    fun h => (c10_wrapping_idempotent (SetImpl.locked (.mapSet ⟨[1]⟩))).1 h⟩

end Claim10

section Claim5

variable {M : Type} [DecidableEq M]

/-- Outcome of handing one element to the consumer's yield function: continue,
request an early stop, or panic. -/
inductive YieldOutcome where
  | next
  | stop
  | panicked
  deriving Repr, DecidableEq

/-- How an iteration pass ended. -/
inductive IterExit where
  | exhausted
  | stopped
  | panicked
  deriving Repr, DecidableEq

/-- The body of `lockedMap.Iterator` (`s.set.Iterator(yield)`): walk the
elements until the consumer stops, panics, or the elements run out. -/
def iterBody (yield : M → YieldOutcome) : List M → IterExit
  | [] => .exhausted
  | k :: ks =>
    match yield k with
    | .next => iterBody yield ks
    | .stop => .stopped
    | .panicked => .panicked

/-- The wrapper state relevant to the iteration protocol: the `iterating` flag
and, as an event count, the broadcasts issued on the condition variable. -/
structure WrapState where
  iterating : Bool
  broadcasts : Nat
  deriving Repr, DecidableEq

/-- The deferred cleanup of `lockedMap.Iterator`:
`s.iterating = false; s.Cond.Broadcast(); s.Cond.L.Unlock()`. -/
def iterCleanup (st : WrapState) : WrapState :=
  { iterating := false, broadcasts := st.broadcasts + 1 }

/-- `lockedMap.Iterator` of the condition-variable locked wrapper: acquire the
lock, set `iterating`, run the body, and run the deferred cleanup.  Go
executes a deferred function on every exit of the surrounding call — normal
return, early return, and panic unwinding alike — so the embedding applies
the cleanup to the result of every branch of the body. -/
def lockedIterator (items : List M) (yield : M → YieldOutcome) (st : WrapState) :
    WrapState × IterExit :=
  let st1 : WrapState := { st with iterating := true }
  match iterBody yield items with
  | .exhausted => (iterCleanup st1, .exhausted)
  | .stopped => (iterCleanup st1, .stopped)
  | .panicked => (iterCleanup st1, .panicked)

/-- C5: on every exit path of an `Iterator` pass of the condition-variable
locked wrapper — natural exhaustion, early stop requested by the consumer, or
a panic in the consumer — the wrapper ends with `iterating = false` and has
broadcast the condition variable exactly once more, waking all waiters. -/
theorem c5_iterator_always_cleans_up (items : List M) (yield : M → YieldOutcome)
    (st : WrapState) :
    (lockedIterator items yield st).1.iterating = false ∧
    (lockedIterator items yield st).1.broadcasts = st.broadcasts + 1 := by
  unfold lockedIterator
  cases iterBody yield items <;> exact ⟨rfl, rfl⟩

end Claim5

section Claim1

/-- Observable events of a run of the locked wrapper: the start of an
iteration pass (the `iterating` flag being set), its end (the deferred
cleanup), and the delegate mutation performed by a mutator call. -/
inductive Ev where
  | iterStart
  | iterEnd
  | mutate
  deriving Repr, DecidableEq

/-- Trace scan (chronological order): tracks whether an iteration is active
and whether every mutation so far happened outside an active iteration. -/
def scanStep : Bool × Bool → Ev → Bool × Bool
  | (_, ok), .iterStart => (true, ok)
  | (_, ok), .iterEnd => (false, ok)
  | (ins, ok), .mutate => (ins, ok && !ins)

def scanEvs (evs : List Ev) : Bool × Bool :=
  evs.foldl scanStep (false, true)

/-- A trace is serializable when no mutation event falls strictly between an
iteration start and the matching iteration end. -/
def serialOk (evs : List Ev) : Prop :=
  (scanEvs evs).2 = true

instance (evs : List Ev) : Decidable (serialOk evs) := by
  unfold serialOk; infer_instance

theorem scanEvs_append (evs : List Ev) (e : Ev) :
    scanEvs (evs ++ [e]) = scanStep (scanEvs evs) e := by
  unfold scanEvs
  rw [List.foldl_append]
  rfl

namespace CondWrap

/-- Program counter of a thread running `lockedMap.Iterator`
(`Lock; iterating = true; body; defer: iterating = false, Broadcast,
Unlock`). -/
inductive IterPC where
  | beforeLock
  | lockHeld
  | iterActive
  | bodyDone
  | cleanupDone
  | finished
  deriving Repr, DecidableEq

/-- Program counter of a thread running a mutator (`Add`/`Remove`/`Clear`) of
the condition-variable wrapper: `Lock; if iterating then Wait; mutate the
delegate; Unlock` (the `Wait` releases the lock and reacquires it after a
broadcast). -/
inductive MutPC where
  | beforeLock
  | checkFlag
  | readyToMutate
  | mutated
  | waiting
  | woken
  | finished
  deriving Repr, DecidableEq

inductive Tid where
  | iter
  | mut
  deriving Repr, DecidableEq

/-- Interleaving state of one iterator thread and one mutator thread sharing
a `lockedMap`: who holds the mutex, the `iterating` flag, both program
counters, and the chronological event trace. -/
structure St where
  lock : Option Tid
  iterating : Bool
  ipc : IterPC
  mpc : MutPC
  evs : List Ev
  deriving Repr, DecidableEq

def init : St := ⟨none, false, .beforeLock, .beforeLock, []⟩

/-- One interleaved step: each constructor is one atomic action of one of the
two threads, enabled only under the mutex and flag discipline of the
source. -/
inductive Step : St → St → Prop where
  | iLock (s : St) (hl : s.lock = none) (hp : s.ipc = .beforeLock) :
      Step s { s with lock := some .iter, ipc := .lockHeld }
  | iSetFlag (s : St) (hp : s.ipc = .lockHeld) :
      Step s { s with
        iterating := true
        ipc := .iterActive
        evs := s.evs ++ [.iterStart] }
  | iBody (s : St) (hp : s.ipc = .iterActive) :
      Step s { s with ipc := .bodyDone }
  | iCleanup (s : St) (hp : s.ipc = .bodyDone) :
      Step s { s with
        iterating := false
        ipc := .cleanupDone
        mpc := if s.mpc = .waiting then .woken else s.mpc
        evs := s.evs ++ [.iterEnd] }
  | iUnlock (s : St) (hp : s.ipc = .cleanupDone) :
      Step s { s with lock := none, ipc := .finished }
  | mLock (s : St) (hl : s.lock = none) (hp : s.mpc = .beforeLock) :
      Step s { s with lock := some .mut, mpc := .checkFlag }
  | mCheckClear (s : St) (hp : s.mpc = .checkFlag) (hi : s.iterating = false) :
      Step s { s with mpc := .readyToMutate }
  | mCheckWait (s : St) (hp : s.mpc = .checkFlag) (hi : s.iterating = true) :
      Step s { s with lock := none, mpc := .waiting }
  | mReacquire (s : St) (hl : s.lock = none) (hp : s.mpc = .woken) :
      Step s { s with lock := some .mut, mpc := .readyToMutate }
  | mMutate (s : St) (hp : s.mpc = .readyToMutate) :
      Step s { s with mpc := .mutated, evs := s.evs ++ [.mutate] }
  | mUnlock (s : St) (hp : s.mpc = .mutated) :
      Step s { s with lock := none, mpc := .finished }

inductive Reach : St → Prop where
  | init : Reach init
  | step {s s' : St} : Reach s → Step s s' → Reach s'

/-- The inductive invariant: lock ownership matches the program counters, the
`iterating` flag is set exactly while the iterator is between flag-set and
cleanup, the trace scan agrees with that, and the trace is serializable. -/
def Inv (s : St) : Prop :=
  ((s.ipc = .lockHeld ∨ s.ipc = .iterActive ∨ s.ipc = .bodyDone ∨ s.ipc = .cleanupDone) →
    s.lock = some .iter) ∧
  ((s.mpc = .checkFlag ∨ s.mpc = .readyToMutate ∨ s.mpc = .mutated) →
    s.lock = some .mut) ∧
  (s.iterating = true ↔ (s.ipc = .iterActive ∨ s.ipc = .bodyDone)) ∧
  ((scanEvs s.evs).1 = true ↔ (s.ipc = .iterActive ∨ s.ipc = .bodyDone)) ∧
  (scanEvs s.evs).2 = true

theorem inv_init : Inv init := by
  refine ⟨?_, ?_, ?_, ?_, ?_⟩ <;> decide

end CondWrap

theorem scanEvs_start (evs : List Ev) :
    scanEvs (evs ++ [Ev.iterStart]) = (true, (scanEvs evs).2) := by
  rw [scanEvs_append]
  cases hsE : scanEvs evs with
  | mk ins ok => rfl

theorem scanEvs_stop (evs : List Ev) :
    scanEvs (evs ++ [Ev.iterEnd]) = (false, (scanEvs evs).2) := by
  rw [scanEvs_append]
  cases hsE : scanEvs evs with
  | mk ins ok => rfl

theorem scanEvs_mutate (evs : List Ev) :
    scanEvs (evs ++ [Ev.mutate]) =
      ((scanEvs evs).1, (scanEvs evs).2 && !(scanEvs evs).1) := by
  rw [scanEvs_append]
  cases hsE : scanEvs evs with
  | mk ins ok => rfl

namespace CondWrap

theorem inv_step {s s' : St} (hInv : Inv s) (hst : Step s s') : Inv s' := by
  obtain ⟨h1, h2, h3, h4, h5⟩ := hInv
  cases hst with
  | iLock hl hp =>
    refine ⟨fun _ => rfl, fun hm => ?_, ?_, ?_, h5⟩
    · have ha := h2 hm
      rw [hl] at ha
      exact Option.noConfusion ha
    · refine iff_of_false ?_ ?_
      · intro hi
        rcases h3.1 hi with h | h <;> (rw [hp] at h; exact IterPC.noConfusion h)
      · rintro (h | h) <;> exact IterPC.noConfusion h
    · refine iff_of_false ?_ ?_
      · intro hsc
        rcases h4.1 hsc with h | h <;> (rw [hp] at h; exact IterPC.noConfusion h)
      · rintro (h | h) <;> exact IterPC.noConfusion h
  | iSetFlag hp =>
    refine ⟨fun _ => h1 (Or.inl hp), fun hm => h2 hm, ?_, ?_, ?_⟩
    · exact iff_of_true rfl (Or.inl rfl)
    · rw [scanEvs_start]
      exact iff_of_true rfl (Or.inl rfl)
    · rw [scanEvs_start]
      exact h5
  | iBody hp =>
    exact ⟨fun _ => h1 (Or.inr (Or.inl hp)), h2,
      iff_of_true (h3.2 (Or.inl hp)) (Or.inr rfl),
      iff_of_true (h4.2 (Or.inl hp)) (Or.inr rfl), h5⟩
  | iCleanup hp =>
    refine ⟨fun _ => h1 (Or.inr (Or.inr (Or.inl hp))), fun hm => ?_, ?_, ?_, ?_⟩
    · by_cases hw : s.mpc = .waiting
      · rw [if_pos hw] at hm
        rcases hm with h | h | h <;> exact MutPC.noConfusion h
      · rw [if_neg hw] at hm
        exact h2 hm
    · refine iff_of_false (by simp) ?_
      rintro (h | h) <;> exact IterPC.noConfusion h
    · rw [scanEvs_stop]
      refine iff_of_false (by simp) ?_
      rintro (h | h) <;> exact IterPC.noConfusion h
    · rw [scanEvs_stop]
      exact h5
  | iUnlock hp =>
    refine ⟨fun hi => ?_, fun hm => ?_, ?_, ?_, h5⟩
    · rcases hi with h | h | h | h <;> exact IterPC.noConfusion h
    · have ha := h2 hm
      have hb := h1 (Or.inr (Or.inr (Or.inr hp)))
      rw [ha] at hb
      exact absurd hb (by decide)
    · refine iff_of_false ?_ ?_
      · intro hi
        rcases h3.1 hi with h | h <;> (rw [hp] at h; exact IterPC.noConfusion h)
      · rintro (h | h) <;> exact IterPC.noConfusion h
    · refine iff_of_false ?_ ?_
      · intro hsc
        rcases h4.1 hsc with h | h <;> (rw [hp] at h; exact IterPC.noConfusion h)
      · rintro (h | h) <;> exact IterPC.noConfusion h
  | mLock hl hp =>
    refine ⟨fun hi => ?_, fun _ => rfl, h3, h4, h5⟩
    have ha := h1 hi
    rw [hl] at ha
    exact Option.noConfusion ha
  | mCheckClear hp hi =>
    exact ⟨h1, fun _ => h2 (Or.inl hp), h3, h4, h5⟩
  | mCheckWait hp hi =>
    rcases h3.1 hi with h | h
    · exact absurd ((h2 (Or.inl hp)).symm.trans (h1 (Or.inr (Or.inl h)))) (by decide)
    · exact absurd ((h2 (Or.inl hp)).symm.trans (h1 (Or.inr (Or.inr (Or.inl h))))) (by decide)
  | mReacquire hl hp =>
    refine ⟨fun hi => ?_, fun _ => rfl, h3, h4, h5⟩
    have ha := h1 hi
    rw [hl] at ha
    exact Option.noConfusion ha
  | mMutate hp =>
    refine ⟨h1, fun _ => h2 (Or.inr (Or.inl hp)), h3, ?_, ?_⟩
    · rw [scanEvs_mutate]
      exact h4
    · rw [scanEvs_mutate]
      have hins : (scanEvs s.evs).1 = false := by
        by_contra hc
        have hc2 : (scanEvs s.evs).1 = true := by simpa using hc
        rcases h4.1 hc2 with h | h
        · exact absurd ((h2 (Or.inr (Or.inl hp))).symm.trans
            (h1 (Or.inr (Or.inl h)))) (by decide)
        · exact absurd ((h2 (Or.inr (Or.inl hp))).symm.trans
            (h1 (Or.inr (Or.inr (Or.inl h))))) (by decide)
      simp [hins, h5]
  | mUnlock hp =>
    refine ⟨fun hi => ?_, fun hm => ?_, h3, h4, h5⟩
    · have ha := h1 hi
      have hb := h2 (Or.inr (Or.inr hp))
      rw [ha] at hb
      exact absurd hb (by decide)
    · rcases hm with h | h | h <;> exact MutPC.noConfusion h

theorem reach_inv {s : St} (h : Reach s) : Inv s := by
  induction h with
  | init => exact inv_init
  | step hr hst ih => exact inv_step ih hst

end CondWrap

namespace AtomicWrap

/-- Program counter of a thread running the atomic-flag `LockedMap.Iterator`
(`for !iterating.CompareAndSwap(false, true) {}; RLock; body;
defer: iterating.Store(false), RUnlock`). -/
inductive IterPC where
  | beforeCas
  | casDone
  | readLockHeld
  | bodyDone
  | finished
  deriving Repr, DecidableEq

/-- Program counter of a thread running the atomic-flag `LockedMap.Add`:
`if !iterating.Load() { Lock; defer Unlock }; mutate the map` — when the
`iterating` flag is observed set, the method takes NO lock at all and mutates
immediately. -/
inductive MutPC where
  | beforeLoad
  | noLockMutate
  | beforeLock
  | lockAcquired
  | mutatedLocked
  | finished
  deriving Repr, DecidableEq

/-- Interleaving state for the atomic-flag `LockedMap`: the atomic `iterating`
flag, the reader count and writer flag of the `sync.RWMutex`, the two program
counters and the chronological event trace. -/
structure St where
  iterating : Bool
  readers : Nat
  writer : Bool
  ipc : IterPC
  mpc : MutPC
  evs : List Ev
  deriving Repr, DecidableEq

def init : St := ⟨false, 0, false, .beforeCas, .beforeLoad, []⟩

/-- One interleaved step of the iterator thread and one `Add` caller. -/
inductive Step : St → St → Prop where
  | iCas (s : St) (hp : s.ipc = .beforeCas) (hi : s.iterating = false) :
      Step s { s with
        iterating := true
        ipc := .casDone
        evs := s.evs ++ [.iterStart] }
  | iRLock (s : St) (hp : s.ipc = .casDone) (hw : s.writer = false) :
      Step s { s with
        readers := s.readers + 1
        ipc := .readLockHeld }
  | iBody (s : St) (hp : s.ipc = .readLockHeld) :
      Step s { s with ipc := .bodyDone }
  | iFinish (s : St) (hp : s.ipc = .bodyDone) :
      Step s { s with
        iterating := false
        readers := s.readers - 1
        ipc := .finished
        evs := s.evs ++ [.iterEnd] }
  | mLoadTrue (s : St) (hp : s.mpc = .beforeLoad) (hi : s.iterating = true) :
      Step s { s with mpc := .noLockMutate }
  | mLoadFalse (s : St) (hp : s.mpc = .beforeLoad) (hi : s.iterating = false) :
      Step s { s with mpc := .beforeLock }
  | mMutateNoLock (s : St) (hp : s.mpc = .noLockMutate) :
      Step s { s with
        mpc := .finished
        evs := s.evs ++ [.mutate] }
  | mWLock (s : St) (hp : s.mpc = .beforeLock) (hw : s.writer = false)
      (hr : s.readers = 0) :
      Step s { s with
        writer := true
        mpc := .lockAcquired }
  | mMutateLocked (s : St) (hp : s.mpc = .lockAcquired) :
      Step s { s with
        mpc := .mutatedLocked
        evs := s.evs ++ [.mutate] }
  | mWUnlock (s : St) (hp : s.mpc = .mutatedLocked) :
      Step s { s with
        writer := false
        mpc := .finished }

inductive Reach : St → Prop where
  | init : Reach init
  | step {s s' : St} : Reach s → Step s s' → Reach s'

end AtomicWrap

/-- C1 counterexample: in the atomic-flag `LockedMap` variant, an `Add` that
observes `iterating == true` skips lock acquisition and mutates while the
iteration is still in progress: the trace `iterStart, mutate, iterEnd` — a
mutation strictly between the start and the end of an active iteration — is
reachable, so that variant does not serialize mutation against iteration. -/
theorem c1_counterexample :
    AtomicWrap.Reach
      ⟨false, 0, false, .finished, .finished, [.iterStart, .mutate, .iterEnd]⟩ ∧
    ¬ serialOk [Ev.iterStart, Ev.mutate, Ev.iterEnd] := by
  constructor
  · have h0 := AtomicWrap.Reach.init
    have h1 := AtomicWrap.Reach.step h0 (AtomicWrap.Step.iCas _ rfl rfl)
    have h2 := AtomicWrap.Reach.step h1 (AtomicWrap.Step.iRLock _ rfl rfl)
    have h3 := AtomicWrap.Reach.step h2 (AtomicWrap.Step.mLoadTrue _ rfl rfl)
    have h4 := AtomicWrap.Reach.step h3 (AtomicWrap.Step.mMutateNoLock _ rfl)
    have h5 := AtomicWrap.Reach.step h4 (AtomicWrap.Step.iBody _ rfl)
    have h6 := AtomicWrap.Reach.step h5 (AtomicWrap.Step.iFinish _ rfl)
    exact h6
  · intro h
    exact absurd h (by decide)

/-- C1 (amended): for the condition-variable exclusive-iteration wrapper
(`lockedMap` and the cond-based `LockedMap`/`LockedOrdered`), an interleaved
execution of one mutator call and one full `Iterator` pass is serializable: in
every reachable state of the interleaving semantics the event trace never
places the mutation strictly between the start and the end of an iteration,
so the mutation fully precedes or fully follows the pass.  The atomic-flag
`LockedMap` variant does not have this property (see the counterexample). -/
theorem c1_cond_wrapper_serializes (s : CondWrap.St) (h : CondWrap.Reach s) :
    serialOk s.evs :=
  (CondWrap.reach_inv h).2.2.2.2

/-- Witness for C1: a complete serial run — the iterator pass followed by the
mutator — reaches a final state, and the theorem yields its serializability. -/
theorem c1_witness :
    CondWrap.Reach
      ⟨none, false, .finished, .finished, [.iterStart, .iterEnd, .mutate]⟩ ∧
    serialOk [Ev.iterStart, Ev.iterEnd, Ev.mutate] := by
  have h0 := CondWrap.Reach.init
  have h1 := CondWrap.Reach.step h0 (CondWrap.Step.iLock _ rfl rfl)
  have h2 := CondWrap.Reach.step h1 (CondWrap.Step.iSetFlag _ rfl)
  have h3 := CondWrap.Reach.step h2 (CondWrap.Step.iBody _ rfl)
  have h4 := CondWrap.Reach.step h3 (CondWrap.Step.iCleanup _ rfl)
  have h5 := CondWrap.Reach.step h4 (CondWrap.Step.iUnlock _ rfl)
  have h6 := CondWrap.Reach.step h5 (CondWrap.Step.mLock _ rfl rfl)
  have h7 := CondWrap.Reach.step h6 (CondWrap.Step.mCheckClear _ rfl rfl)
  have h8 := CondWrap.Reach.step h7 (CondWrap.Step.mMutate _ rfl)
  have h9 := CondWrap.Reach.step h8 (CondWrap.Step.mUnlock _ rfl)
  have hre : CondWrap.Reach
      ⟨none, false, .finished, .finished, [.iterStart, .iterEnd, .mutate]⟩ := h9
  exact ⟨hre, c1_cond_wrapper_serializes _ hre⟩

end Claim1

section Claim9

theorem getD_set_self {A : Type} (l : List A) (i : Nat) (v d : A) (h : i < l.length) :
    (l.set i v).getD i d = v := by
  rw [List.getD_eq_getElem _ _ (by rw [List.length_set]; exact h)]
  exact List.getElem_set_self _

theorem getD_set_ne {A : Type} (l : List A) (i j : Nat) (v d : A) (h : i ≠ j) :
    (l.set i v).getD j d = l.getD j d := by
  rw [List.getD_eq_getElem?_getD, List.getD_eq_getElem?_getD, List.getElem?_set_ne h]

variable {M : Type} [DecidableEq M] [Inhabited M]

/-- A heap of Go objects backing ordered sets: the allocated `map[M]int`
objects and the allocated slices, each addressed by its allocation index.
Aliasing is explicit: two `Ordered` values are independent exactly when their
references differ. -/
structure OrdHeap (M : Type) where
  maps : List (List (M × Nat))
  slices : List (List M)
  deriving Repr

/-- A reference held by one `Ordered` value: which map object and which slice
object on the heap are its `idx` and `values`. -/
structure OrdRef where
  mapId : Nat
  sliceId : Nat
  deriving Repr, DecidableEq

def OrdHeap.mapAt (h : OrdHeap M) (r : OrdRef) : List (M × Nat) :=
  h.maps.getD r.mapId []

def OrdHeap.sliceAt (h : OrdHeap M) (r : OrdRef) : List M :=
  h.slices.getD r.sliceId []

/-- The `Ordered` value seen through a reference. -/
def OrdHeap.readOrd (h : OrdHeap M) (r : OrdRef) : Ordered M :=
  ⟨h.mapAt r, h.sliceAt r⟩

def OrdRef.ValidIn (r : OrdRef) (h : OrdHeap M) : Prop :=
  r.mapId < h.maps.length ∧ r.sliceId < h.slices.length

instance (r : OrdRef) (h : OrdHeap M) : Decidable (r.ValidIn h) := by
  unfold OrdRef.ValidIn
  infer_instance

/-- A mutating method call through a reference: compute the new `idx` and
`values` of the receiver and store them back into its two heap cells — and
only those. -/
def hMutate (h : OrdHeap M) (r : OrdRef) (f : Ordered M → Ordered M) : OrdHeap M :=
  ⟨h.maps.set r.mapId (f (h.readOrd r)).idx, h.slices.set r.sliceId (f (h.readOrd r)).values⟩

/-- `NewOrdered` on the heap: allocate a fresh empty map and a fresh empty
slice and return the reference to them. -/
def hNewOrdered (h : OrdHeap M) : OrdHeap M × OrdRef :=
  (⟨h.maps ++ [[]], h.slices ++ [[]]⟩, ⟨h.maps.length, h.slices.length⟩)

/-- The loop of `NewOrderedFrom`: `for x := range seq { s.Add(x) }`. -/
def hAddAll (h : OrdHeap M) (r : OrdRef) : List M → OrdHeap M
  | [] => h
  | m :: ms => hAddAll (hMutate h r (fun s => (s.Add m).2)) r ms

/-- `Ordered.Clone` on the heap (`NewOrderedFrom(s.Iterator)`): allocate a
fresh ordered set and `Add` every iterated element of the receiver into it. -/
def hClone (h : OrdHeap M) (r : OrdRef) : OrdHeap M × OrdRef :=
  ((hAddAll (hNewOrdered h).1 (hNewOrdered h).2 (h.sliceAt r)), (hNewOrdered h).2)

/-- The mutations of the ordered set contract. -/
inductive MutOp (M : Type) where
  | addEl (m : M)
  | removeEl (m : M)
  | clearAll
  deriving Repr

def applyPureOrd (op : MutOp M) (s : Ordered M) : Ordered M :=
  match op with
  | .addEl m => (s.Add m).2
  | .removeEl m => (s.Remove m).2
  | .clearAll => s.Clear.2

/-- `Add` / `Remove` / `Clear` called on the set behind a reference. -/
def applyMutOrd (h : OrdHeap M) (r : OrdRef) (op : MutOp M) : OrdHeap M :=
  hMutate h r (applyPureOrd op)

theorem hMutate_read (h : OrdHeap M) (r : OrdRef) (f : Ordered M → Ordered M)
    (hv : r.ValidIn h) : (hMutate h r f).readOrd r = f (h.readOrd r) := by
  unfold hMutate
  cases hfs : f (h.readOrd r) with
  | mk fidx fvals =>
    unfold OrdHeap.readOrd OrdHeap.mapAt OrdHeap.sliceAt
    dsimp only
    rw [getD_set_self _ _ _ _ hv.1, getD_set_self _ _ _ _ hv.2]

theorem hMutate_frame (h : OrdHeap M) (r r2 : OrdRef) (f : Ordered M → Ordered M)
    (hm : r2.mapId ≠ r.mapId) (hs : r2.sliceId ≠ r.sliceId) :
    (hMutate h r f).readOrd r2 = h.readOrd r2 := by
  unfold hMutate OrdHeap.readOrd OrdHeap.mapAt OrdHeap.sliceAt
  dsimp only
  rw [getD_set_ne _ _ _ _ _ hm.symm, getD_set_ne _ _ _ _ _ hs.symm]

theorem valid_hMutate {h : OrdHeap M} {r2 : OrdRef} (r : OrdRef)
    (f : Ordered M → Ordered M) (hv : r2.ValidIn h) : r2.ValidIn (hMutate h r f) := by
  unfold hMutate OrdRef.ValidIn at *
  dsimp only
  rw [List.length_set, List.length_set]
  exact hv

theorem hAddAll_read (ms : List M) (h : OrdHeap M) (r : OrdRef) (hv : r.ValidIn h) :
    (hAddAll h r ms).readOrd r = ms.foldl (fun s x => (s.Add x).2) (h.readOrd r) := by
  induction ms generalizing h with
  | nil => rfl
  | cons m t ih =>
    show (hAddAll (hMutate h r (fun s => (s.Add m).2)) r t).readOrd r = _
    rw [ih _ (valid_hMutate r _ hv), hMutate_read _ _ _ hv, List.foldl_cons]

theorem hAddAll_frame (ms : List M) (h : OrdHeap M) (r r2 : OrdRef)
    (hm : r2.mapId ≠ r.mapId) (hs : r2.sliceId ≠ r.sliceId) :
    (hAddAll h r ms).readOrd r2 = h.readOrd r2 := by
  induction ms generalizing h with
  | nil => rfl
  | cons m t ih =>
    show (hAddAll (hMutate h r (fun s => (s.Add m).2)) r t).readOrd r2 = _
    rw [ih _, hMutate_frame _ _ _ _ hm hs]

theorem hNewOrdered_fresh (h : OrdHeap M) (r : OrdRef) (hv : r.ValidIn h) :
    (hNewOrdered h).2.mapId ≠ r.mapId ∧ (hNewOrdered h).2.sliceId ≠ r.sliceId := by
  unfold hNewOrdered
  dsimp only
  have h1 := hv.1
  have h2 := hv.2
  omega

theorem hNewOrdered_preserves (h : OrdHeap M) (r : OrdRef) (hv : r.ValidIn h) :
    (hNewOrdered h).1.readOrd r = h.readOrd r := by
  unfold hNewOrdered OrdHeap.readOrd OrdHeap.mapAt OrdHeap.sliceAt
  dsimp only
  rw [List.getD_append _ _ _ _ hv.1, List.getD_append _ _ _ _ hv.2]

theorem hNewOrdered_fresh_read (h : OrdHeap M) :
    (hNewOrdered h).1.readOrd (hNewOrdered h).2 = NewOrdered := by
  unfold hNewOrdered OrdHeap.readOrd OrdHeap.mapAt OrdHeap.sliceAt NewOrdered
  dsimp only
  rw [List.getD_append_right _ _ _ _ (le_refl _), List.getD_append_right _ _ _ _ (le_refl _)]
  simp

theorem hNewOrdered_valid (h : OrdHeap M) : (hNewOrdered h).2.ValidIn (hNewOrdered h).1 := by
  unfold hNewOrdered OrdRef.ValidIn
  dsimp only
  simp

theorem foldl_add_inv (l : List M) (s : Ordered M) (hs : OrderedInv s) :
    OrderedInv (l.foldl (fun s x => (s.Add x).2) s) := by
  induction l generalizing s with
  | nil => exact hs
  | cons k t ih => exact ih _ (add_inv hs k)

theorem newElems_of_nodup {vs : List M} (seen : List M) (hnd : vs.Nodup)
    (hdisj : ∀ x ∈ vs, x ∉ seen) : newElems seen vs = vs := by
  induction vs generalizing seen with
  | nil => rfl
  | cons k t ih =>
    have hk : k ∉ seen := hdisj k (List.mem_cons_self _ _)
    have hnd2 := List.nodup_cons.1 hnd
    rw [newElems, if_neg hk, ih (seen ++ [k]) hnd2.2]
    intro x hx
    rw [List.mem_append]
    rintro (h | h)
    · exact hdisj x (List.mem_cons_of_mem _ hx) h
    · simp at h
      subst h
      exact hnd2.1 hx

theorem equalSets_of_values_eq {a b : Ordered M} (ha : OrderedInv a) (hb : OrderedInv b)
    (h : a.values = b.values) : a.EqualSets b = true := by
  unfold Ordered.EqualSets Ordered.SubsetOf
  rw [Bool.and_eq_true, List.all_eq_true, List.all_eq_true]
  constructor
  · intro k hk
    exact hb.containsIff.2 (h ▸ hk)
  · intro k hk
    exact ha.containsIff.2 (h ▸ hk)

theorem hClone_view (h : OrdHeap M) (r : OrdRef) :
    (hClone h r).1.readOrd (hClone h r).2 = NewOrderedFromList (h.sliceAt r) := by
  unfold hClone
  dsimp only
  rw [hAddAll_read _ _ _ (hNewOrdered_valid h), hNewOrdered_fresh_read]
  rfl

theorem newOrderedFromList_values (l : List M) :
    (NewOrderedFromList l : Ordered M).values = newElems [] l := by
  unfold NewOrderedFromList
  rw [newOrderedFromList_eq_fold l NewOrdered 0]
  have h := appendSeqOrdered_fold l (0, (NewOrdered : Ordered M)) newOrdered_inv
  simpa [NewOrdered] using h

theorem newOrderedFromList_inv (l : List M) :
    OrderedInv (NewOrderedFromList l : Ordered M) :=
  foldl_add_inv l NewOrdered newOrdered_inv

/-- `Map` heap: the allocated `map[M]struct{}` objects, each addressed by its
allocation index, holding their key lists. -/
structure MapHeap (M : Type) where
  cells : List (List M)
  deriving Repr

def MapHeap.cellAt (h : MapHeap M) (r : Nat) : List M :=
  h.cells.getD r []

/-- A mutating `Map` method call through a reference: store the receiver's
new key set back into its cell — and only its cell. -/
def mhMutate (h : MapHeap M) (r : Nat) (f : MapSet M → MapSet M) : MapHeap M :=
  ⟨h.cells.set r (f ⟨h.cellAt r⟩).set⟩

/-- `New` on the heap: allocate a fresh empty map. -/
def mhNew (h : MapHeap M) : MapHeap M × Nat :=
  (⟨h.cells ++ [[]]⟩, h.cells.length)

/-- The loop of `NewFrom`: `for x := range seq { s.Add(x) }`. -/
def mhAddAll (h : MapHeap M) (r : Nat) : List M → MapHeap M
  | [] => h
  | m :: ms => mhAddAll (mhMutate h r (fun s => (s.Add m).2)) r ms

/-- `Map.Clone` on the heap (`NewFrom(s.Iterator)`). -/
def mhClone (h : MapHeap M) (r : Nat) : MapHeap M × Nat :=
  (mhAddAll (mhNew h).1 (mhNew h).2 (h.cellAt r), (mhNew h).2)

def applyPureMap (op : MutOp M) (s : MapSet M) : MapSet M :=
  match op with
  | .addEl m => (s.Add m).2
  | .removeEl m => (s.Remove m).2
  | .clearAll => s.Clear.2

/-- `Add` / `Remove` / `Clear` called on the map-backed set behind a
reference. -/
def applyMutMap (h : MapHeap M) (r : Nat) (op : MutOp M) : MapHeap M :=
  mhMutate h r (applyPureMap op)

theorem mhMutate_read (h : MapHeap M) (r : Nat) (f : MapSet M → MapSet M)
    (hv : r < h.cells.length) :
    (mhMutate h r f).cellAt r = (f ⟨h.cellAt r⟩).set := by
  unfold mhMutate MapHeap.cellAt
  dsimp only
  exact getD_set_self _ _ _ _ hv

theorem mhMutate_frame (h : MapHeap M) (r r2 : Nat) (f : MapSet M → MapSet M)
    (hne : r2 ≠ r) : (mhMutate h r f).cellAt r2 = h.cellAt r2 := by
  unfold mhMutate MapHeap.cellAt
  dsimp only
  exact getD_set_ne _ _ _ _ _ hne.symm

theorem mhMutate_length (h : MapHeap M) (r : Nat) (f : MapSet M → MapSet M) :
    (mhMutate h r f).cells.length = h.cells.length := by
  unfold mhMutate
  dsimp only
  rw [List.length_set]

theorem mhAddAll_read (ms : List M) (h : MapHeap M) (r : Nat) (hv : r < h.cells.length) :
    (mhAddAll h r ms).cellAt r =
      (ms.foldl (fun c x => (c.Add x).2) (⟨h.cellAt r⟩ : MapSet M)).set := by
  induction ms generalizing h with
  | nil => rfl
  | cons m t ih =>
    show (mhAddAll (mhMutate h r (fun s => (s.Add m).2)) r t).cellAt r = _
    rw [ih _ (by rw [mhMutate_length]; exact hv), mhMutate_read _ _ _ hv, List.foldl_cons]

theorem mhAddAll_frame (ms : List M) (h : MapHeap M) (r r2 : Nat) (hne : r2 ≠ r) :
    (mhAddAll h r ms).cellAt r2 = h.cellAt r2 := by
  induction ms generalizing h with
  | nil => rfl
  | cons m t ih =>
    show (mhAddAll (mhMutate h r (fun s => (s.Add m).2)) r t).cellAt r2 = _
    rw [ih _, mhMutate_frame _ _ _ _ hne]

theorem mhNew_fresh (h : MapHeap M) (r : Nat) (hv : r < h.cells.length) :
    (mhNew h).2 ≠ r := by
  unfold mhNew
  dsimp only
  omega

theorem mhNew_preserves (h : MapHeap M) (r : Nat) (hv : r < h.cells.length) :
    (mhNew h).1.cellAt r = h.cellAt r := by
  unfold mhNew MapHeap.cellAt
  dsimp only
  rw [List.getD_append _ _ _ _ hv]

theorem mhNew_fresh_read (h : MapHeap M) : (mhNew h).1.cellAt (mhNew h).2 = [] := by
  unfold mhNew MapHeap.cellAt
  dsimp only
  rw [List.getD_append_right _ _ _ _ (le_refl _)]
  simp

theorem mhNew_valid (h : MapHeap M) : (mhNew h).2 < (mhNew h).1.cells.length := by
  unfold mhNew
  dsimp only
  simp

theorem mapFold_mem (l : List M) (s : MapSet M) (x : M) :
    x ∈ (l.foldl (fun c y => (c.Add y).2) s).set ↔ (x ∈ s.set ∨ x ∈ l) := by
  induction l generalizing s with
  | nil => simp
  | cons k t ih =>
    rw [List.foldl_cons]
    by_cases h : s.Contains k = true
    · rw [mapset_add_of_contains h]
      dsimp only
      rw [ih]
      have hk : k ∈ s.set := by simpa [MapSet.Contains] using h
      constructor
      · rintro (hx | hx)
        · exact Or.inl hx
        · exact Or.inr (List.mem_cons_of_mem _ hx)
      · rintro (hx | hx)
        · exact Or.inl hx
        · rcases List.mem_cons.1 hx with heq | hx2
          · subst heq
            exact Or.inl hk
          · exact Or.inr hx2
    · have h2 : s.Contains k = false := by simpa using h
      rw [mapset_add_of_not_contains h2]
      dsimp only
      rw [ih]
      simp only [List.mem_append, List.mem_cons, List.mem_singleton]
      tauto

theorem mapEqualSets_of_mem_iff {a b : MapSet M} (h : ∀ x, x ∈ a.set ↔ x ∈ b.set) :
    a.EqualSets b = true := by
  unfold MapSet.EqualSets MapSet.SubsetOf MapSet.Contains
  rw [Bool.and_eq_true, List.all_eq_true, List.all_eq_true]
  constructor
  · intro k hk
    simpa using (h k).1 hk
  · intro k hk
    simpa using (h k).2 hk

theorem mhClone_view_mem (h : MapHeap M) (r : Nat) (hv : r < h.cells.length) (x : M) :
    x ∈ (mhClone h r).1.cellAt (mhClone h r).2 ↔ x ∈ h.cellAt r := by
  unfold mhClone
  dsimp only
  rw [mhAddAll_read _ _ _ (mhNew_valid h), mhNew_fresh_read, mapFold_mem]
  simp

/-- C9: `Clone` produces an independent container of the same kind with the
same membership — and the same order for the ordered kind.  On an explicit
heap of map and slice objects: the clone's references are fresh (distinct
from the original's), cloning leaves the original untouched, the clone holds
equal contents (equal `values` for `Ordered`, equal membership for `Map`),
`Equal(s, s.Clone())` holds, and every subsequent `Add`/`Remove`/`Clear`
through the clone's references leaves the original's heap cells unchanged
and vice versa. -/
theorem c9_clone_independent (h : OrdHeap M) (r : OrdRef) (hv : r.ValidIn h)
    (hInv : OrderedInv (h.readOrd r))
    (hm : MapHeap M) (rm : Nat) (hvm : rm < hm.cells.length) :
    ((hClone h r).2.mapId ≠ r.mapId ∧ (hClone h r).2.sliceId ≠ r.sliceId) ∧
    (hClone h r).1.readOrd r = h.readOrd r ∧
    ((hClone h r).1.readOrd (hClone h r).2).values = (h.readOrd r).values ∧
    (h.readOrd r).EqualSets ((hClone h r).1.readOrd (hClone h r).2) = true ∧
    (∀ op : MutOp M,
      (applyMutOrd (hClone h r).1 (hClone h r).2 op).readOrd r =
        (hClone h r).1.readOrd r ∧
      (applyMutOrd (hClone h r).1 r op).readOrd (hClone h r).2 =
        (hClone h r).1.readOrd (hClone h r).2) ∧
    ((mhClone hm rm).2 ≠ rm) ∧
    (mhClone hm rm).1.cellAt rm = hm.cellAt rm ∧
    (∀ x : M, x ∈ (mhClone hm rm).1.cellAt (mhClone hm rm).2 ↔ x ∈ hm.cellAt rm) ∧
    MapSet.EqualSets ⟨hm.cellAt rm⟩ ⟨(mhClone hm rm).1.cellAt (mhClone hm rm).2⟩ = true ∧
    (∀ op : MutOp M,
      (applyMutMap (mhClone hm rm).1 (mhClone hm rm).2 op).cellAt rm =
        (mhClone hm rm).1.cellAt rm ∧
      (applyMutMap (mhClone hm rm).1 rm op).cellAt (mhClone hm rm).2 =
        (mhClone hm rm).1.cellAt (mhClone hm rm).2) := by
  obtain ⟨hfm, hfs⟩ := hNewOrdered_fresh h r hv
  have hb : (hClone h r).1.readOrd r = h.readOrd r := by
    unfold hClone
    dsimp only
    rw [hAddAll_frame _ _ _ _ hfm.symm hfs.symm, hNewOrdered_preserves _ _ hv]
  have hvalues : ((hClone h r).1.readOrd (hClone h r).2).values = (h.readOrd r).values := by
    rw [hClone_view, newOrderedFromList_values]
    exact newElems_of_nodup [] hInv.nodup (fun x _ => List.not_mem_nil x)
  have hcloneInv : OrderedInv ((hClone h r).1.readOrd (hClone h r).2) := by
    rw [hClone_view]
    exact newOrderedFromList_inv _
  have hmf := mhNew_fresh hm rm hvm
  refine ⟨⟨hfm, hfs⟩, hb, hvalues,
    equalSets_of_values_eq hInv hcloneInv hvalues.symm, ?_, hmf, ?_, ?_, ?_, ?_⟩
  · intro op
    exact ⟨hMutate_frame _ _ _ _ hfm.symm hfs.symm, hMutate_frame _ _ _ _ hfm hfs⟩
  · unfold mhClone
    dsimp only
    rw [mhAddAll_frame _ _ _ _ hmf.symm, mhNew_preserves _ _ hvm]
  · exact mhClone_view_mem hm rm hvm
  · exact mapEqualSets_of_mem_iff (fun x => (mhClone_view_mem hm rm hvm x).symm)
  · intro op
    exact ⟨mhMutate_frame _ _ _ _ hmf.symm, mhMutate_frame _ _ _ _ hmf⟩

/-- Witness for C9 on a concrete heap: an ordered set `[1,2]` at reference
`(0,0)` and a map set `{5}` at cell `0`; the clone reproduces the values and
lives at a fresh reference. -/
theorem c9_witness :
    ((OrdRef.mk 0 0).ValidIn (⟨[[(1, 0), (2, 1)]], [[1, 2]]⟩ : OrdHeap Nat) ∧
      OrderedInv ((⟨[[(1, 0), (2, 1)]], [[1, 2]]⟩ : OrdHeap Nat).readOrd ⟨0, 0⟩) ∧
      (0 : Nat) < (⟨[[5]]⟩ : MapHeap Nat).cells.length) ∧
    ((hClone (⟨[[(1, 0), (2, 1)]], [[1, 2]]⟩ : OrdHeap Nat) ⟨0, 0⟩).1.readOrd
      (hClone (⟨[[(1, 0), (2, 1)]], [[1, 2]]⟩ : OrdHeap Nat) ⟨0, 0⟩).2).values = [1, 2] ∧
    (mhClone (⟨[[5]]⟩ : MapHeap Nat) 0).2 ≠ 0 :=
  ⟨⟨by decide, by decide, by decide⟩,
    ((c9_clone_independent (⟨[[(1, 0), (2, 1)]], [[1, 2]]⟩ : OrdHeap Nat) ⟨0, 0⟩
      (by decide) (by decide) (⟨[[5]]⟩ : MapHeap Nat) 0 (by decide)).2.2.1).trans (by decide),
    (c9_clone_independent (⟨[[(1, 0), (2, 1)]], [[1, 2]]⟩ : OrdHeap Nat) ⟨0, 0⟩
      (by decide) (by decide) (⟨[[5]]⟩ : MapHeap Nat) 0 (by decide)).2.2.2.2.2.1⟩

end Claim9
